import Mathlib

/-
Verification of the fuzzpy graph library (fuzz/graph.py, fuzz/iset.py,
fuzz/fgraph.py) against its natural-language specification.

Modelling conventions:
* Python `set` objects whose element equality is the stored `__eq__` are
  modelled as Lean lists without duplicates (with respect to that equality);
  iteration order of a set is the list order.
* Python floats are modelled as `WithTop ℚ` (rationals with `⊤` playing the
  role of `float('inf')`); the library only ever produces values of the form
  0, 1, 1/q and inf, on which float arithmetic is exact.
* Raising an exception is modelled with `Except`: `PyErr.typeError` for
  `TypeError` (spec `TypeKind`), `PyErr.keyError` for `KeyError`
  (spec `NotFoundKind`), `PyErr.valueError` for `ValueError`
  (spec `DuplicateKind` / `InvalidEdgeKind`).
* Python truthiness of a vertex object (`if not u`, `if prev[u]`) is
  modelled by an arbitrary function `falsy : V → Bool`; theorems hold for
  every such function.
-/

namespace FuzzPy

/-- Python exception classes raised by the library.  The spec's error kinds
map to them as: `TypeKind` = `typeError`, `NotFoundKind` = `keyError`,
`DuplicateKind`/`InvalidEdgeKind` = `valueError`. -/
inductive PyErr where
  | typeError
  | keyError
  | valueError
  deriving DecidableEq

/-- `GraphEdge` (graph.py lines 10-96): an ordered pair (tail, head).
The Python constructor raises `ValueError` on `tail == head`, so every edge
constructed through the API has distinct endpoints; the structure itself does
not carry that invariant and theorems add it as a hypothesis where needed. -/
structure GraphEdge (V : Type) where
  tail : V
  head : V
  deriving DecidableEq

variable {V : Type} [DecidableEq V]

/-- `GraphEdge.__contains__` (graph.py lines 49-60): the edge connects to
`vertex` iff the vertex equals the tail or the head. -/
def GraphEdge.containsVertex (e : GraphEdge V) (v : V) : Prop :=
  e.tail = v ∨ e.head = v

instance (e : GraphEdge V) (v : V) : Decidable (e.containsVertex v) := by
  unfold GraphEdge.containsVertex; infer_instance

/-- `GraphEdge.__eq__` (graph.py lines 62-76): ordered-pair comparison,
returns False unless both tail and head match. -/
def GraphEdge.pyEq (e other : GraphEdge V) : Bool :=
  if e.tail ≠ other.tail ∨ e.head ≠ other.head then false else true

/-- `GraphEdge.__hash__` (graph.py lines 39-47): XOR of the hashes of the two
endpoints.  `h` is the ambient Python hash function on vertex objects. -/
def GraphEdge.pyHash (h : V → Nat) (e : GraphEdge V) : Nat :=
  Nat.xor (h e.tail) (h e.head)

/-- `GraphEdge.reverse` (graph.py lines 89-96). -/
def GraphEdge.reverse (e : GraphEdge V) : GraphEdge V :=
  { tail := e.head, head := e.tail }

/-- Union of two Python sets (`eset |= set([...])`): the members of the first
list followed by the members of the second not already present. -/
def pyUnion {α : Type} [DecidableEq α] (l1 l2 : List α) : List α :=
  l1 ++ l2.filter (fun a => decide (a ∉ l1))

@[simp] theorem mem_pyUnion {α : Type} [DecidableEq α] (l1 l2 : List α) (a : α) :
    a ∈ pyUnion l1 l2 ↔ a ∈ l1 ∨ a ∈ l2 := by
  simp only [pyUnion, List.mem_append, List.mem_filter, decide_eq_true_eq]
  by_cases h : a ∈ l1 <;> simp [h]

/-- `Graph` (graph.py lines 99-564): directed flag plus the stored vertex set
`_V` and the stored edge set `_E` (always directed storage). -/
structure Graph (V : Type) where
  directed : Bool
  vset : List V
  eset : List (GraphEdge V)

/-- A graph constructed with no iterables (`Graph(directed=d)`). -/
def Graph.empty (directed : Bool) : Graph V :=
  { directed := directed, vset := [], eset := [] }

/-- Model-level well-formedness: the lists faithfully represent Python sets
(no duplicates) and every stored edge's endpoints are members of `_V`
(the invariant stated by the spec).  Every graph reachable through the API
satisfies this. -/
def Graph.wf (g : Graph V) : Prop :=
  g.vset.Nodup ∧ g.eset.Nodup ∧
    ∀ e ∈ g.eset, e.tail ∈ g.vset ∧ e.head ∈ g.vset

instance (g : Graph V) : Decidable g.wf := by
  unfold Graph.wf; infer_instance

/-- `Graph.add_vertex` (graph.py lines 145-156): `set.add` on `_V` (the
hashability `TypeError` is ruled out by typing; adding a present vertex is a
no-op). -/
def Graph.add_vertex (g : Graph V) (v : V) : Graph V :=
  { g with vset := if v ∈ g.vset then g.vset else g.vset ++ [v] }

/-- The edge list computed by `Graph.edges` (graph.py lines 222-229) once the
vertex checks have passed: the stored edges matching the optional tail/head
constraints, union (for undirected graphs) the stored edges matching the
constraints with the orientations swapped. -/
def Graph.edgesSel (g : Graph V) (t? h? : Option V) : List (GraphEdge V) :=
  let fwd := g.eset.filter fun e =>
    t?.all (fun t => e.tail == t) && h?.all (fun h => e.head == h)
  if g.directed then fwd
  else pyUnion fwd (g.eset.filter fun e =>
    t?.all (fun t => e.head == t) && h?.all (fun h => e.tail == h))

/-- `Graph.edges` (graph.py lines 208-229): raises `KeyError` if a non-`None`
tail or head argument is not in the vertex set, otherwise returns the
filtered edge set. -/
def Graph.edges (g : Graph V) (t? h? : Option V) : Except PyErr (List (GraphEdge V)) :=
  if (t?.any fun t => decide (t ∉ g.vset)) || (h?.any fun h => decide (h ∉ g.vset)) then
    .error .keyError
  else
    .ok (g.edgesSel t? h?)

/-- `Graph.add_edge` (graph.py lines 172-185): `KeyError` when an endpoint is
missing from `_V`, `ValueError` (the spec's `DuplicateKind`) when an equal
edge is already in `edges()`, otherwise the edge is added to `_E`.
(`edges()` with no arguments never raises; see `Graph.edges_none_none`.) -/
def Graph.add_edge (g : Graph V) (e : GraphEdge V) : Except PyErr (Graph V) :=
  if e.tail ∉ g.vset ∨ e.head ∉ g.vset then .error .keyError
  else if e ∈ g.edgesSel none none then .error .valueError
  else .ok { g with eset := g.eset ++ [e] }

/-- `Graph.remove_edge` (graph.py lines 187-197): every edge in
`edges(tail, head)` is removed from `_E` in turn; errors from `edges`
propagate. -/
def Graph.remove_edge (g : Graph V) (t h : V) : Except PyErr (Graph V) :=
  (g.edges (some t) (some h)).map fun es =>
    { g with eset := es.foldl (fun acc e => acc.erase e) g.eset }

/-- `Graph.remove_vertex` (graph.py lines 158-170): `KeyError` when the
vertex is absent; otherwise every edge of a snapshot of `edges()` containing
the vertex is removed via `remove_edge`, then the vertex is removed. -/
def Graph.remove_vertex (g : Graph V) (v : V) : Except PyErr (Graph V) :=
  if v ∈ g.vset then
    match g.edges none none with
    | .error er => .error er
    | .ok es =>
      match es.foldlM
          (fun acc e =>
            if e.containsVertex v then acc.remove_edge e.tail e.head else pure acc) g with
      | .error er => .error er
      | .ok g2 => .ok { g2 with vset := g2.vset.erase v }
  else .error .keyError

/-- Float values produced by the library: rationals extended with infinity. -/
abbrev FVal := WithTop ℚ

/-- `Graph.weight` (graph.py lines 231-247): 0 on the diagonal, 1 if the
ordered edge `GraphEdge(tail, head)` is a member of `edges()` (Python set
membership, which uses the ordered `__eq__`), infinity otherwise. -/
def Graph.weight (g : Graph V) (t h : V) : FVal :=
  if t = h then 0
  else if (⟨t, h⟩ : GraphEdge V) ∈ g.edgesSel none none then 1
  else ⊤

/-- `Graph.adjacent` (graph.py lines 390-406): False on the diagonal
(before any vertex check), otherwise the truthiness of `edges(tail, head)`,
whose `KeyError` propagates. -/
def Graph.adjacent (g : Graph V) (t h : V) : Except PyErr Bool :=
  if t = h then .ok false
  else
    match g.edges (some t) (some h) with
    | .error er => .error er
    | .ok es => .ok (!es.isEmpty)

/-- A list comprehension with a fallible predicate: elements are tested in
order and the first exception propagates. -/
def exceptFilter {ε α : Type} (p : α → Except ε Bool) : List α → Except ε (List α)
  | [] => .ok []
  | a :: l =>
    match p a with
    | .error er => .error er
    | .ok b =>
      match exceptFilter p l with
      | .error er => .error er
      | .ok r => .ok (if b then a :: r else r)

/-- `Graph.neighbors` (graph.py lines 408-418): the vertices `v` of `_V` with
`adjacent(vertex, v)`. -/
def Graph.neighbors (g : Graph V) (u : V) : Except PyErr (List V) :=
  exceptFilter (fun v => g.adjacent u v) g.vset

/-- The predicate "edge `e` matches the pair (t, h) under the graph's
directed/undirected semantics", i.e. the membership condition of
`edges(t, h)` (graph.py lines 222-228). -/
def Graph.edgeMatches (g : Graph V) (t h : V) (e : GraphEdge V) : Prop :=
  (e.tail = t ∧ e.head = h) ∨ (g.directed = false ∧ e.head = t ∧ e.tail = h)

instance (g : Graph V) (t h : V) (e : GraphEdge V) :
    Decidable (g.edgeMatches t h e) := by
  unfold Graph.edgeMatches; infer_instance

-- Dijkstra / shortest path (graph.py lines 451-502).

/-- One step of the selection loop of `Graph.dijkstra` (graph.py lines
469-472): `if not u or dist[vertex] < dist[u]: u = vertex`.  Python
truthiness of a vertex (`not u`) is supplied as `falsy`. -/
def selectMinGo (falsy : V → Bool) (dist : V → FVal) (u? : Option V) (v : V) : Option V :=
  match u? with
  | none => some v
  | some u => if falsy u || decide (dist v < dist u) then some v else some u

/-- The selection loop of `Graph.dijkstra` (graph.py lines 469-472):
`u = None; for vertex in Q: if not u or dist[vertex] < dist[u]: u = vertex`. -/
def selectMin (falsy : V → Bool) (dist : V → FVal) (Q : List V) : Option V :=
  Q.foldl (selectMinGo falsy dist) none

/-- Pointwise update of a Python dict modelled as a function. -/
def fupdate {α : Type} (f : V → α) (x : V) (a : α) : V → α :=
  fun y => if y = x then a else f y

/-- One relaxation step of `Graph.dijkstra` (graph.py lines 474-478):
`alt = dist[u] + weight(u, vertex); if alt < dist[vertex]` then update
`dist` and `prev` at `vertex`. -/
def Graph.relaxStep (g : Graph V) (u : V)
    (dp : (V → FVal) × (V → Option V)) (v : V) : (V → FVal) × (V → Option V) :=
  if dp.1 u + g.weight u v < dp.1 v then
    (fupdate dp.1 v (dp.1 u + g.weight u v), fupdate dp.2 v (some u))
  else dp

/-- The main loop of `Graph.dijkstra` (graph.py lines 468-478).  The loop
runs `while len(Q)`, removing the selected vertex from `Q` each iteration;
since the selected vertex is always a member of `Q`, fuel `|Q|` makes the
fuel counter and the emptiness of `Q` run out simultaneously. -/
def Graph.dijkstraLoop (g : Graph V) (falsy : V → Bool) :
    Nat → List V → (V → FVal) → (V → Option V) →
      Except PyErr ((V → FVal) × (V → Option V))
  | 0, _, dist, prev => .ok (dist, prev)
  | _ + 1, [], dist, prev => .ok (dist, prev)
  | fuel + 1, q :: qs, dist, prev =>
    match selectMin falsy dist (q :: qs) with
    | none => .ok (dist, prev)
    | some u =>
      match g.neighbors u with
      | .error er => .error er
      | .ok ns =>
        let dp := ns.foldl (g.relaxStep u) (dist, prev)
        g.dijkstraLoop falsy fuel ((q :: qs).erase u) dp.1 dp.2

/-- `Graph.dijkstra` (graph.py lines 451-479): initializes `dist` to
infinity except `dist[start] = 0` and `prev` to `None`, runs the loop over a
copy of the vertex set, and returns the predecessor map. -/
def Graph.dijkstra (g : Graph V) (falsy : V → Bool) (start : V) :
    Except PyErr (V → Option V) :=
  match g.dijkstraLoop falsy g.vset.length g.vset
      (fupdate (fun _ => (⊤ : FVal)) start 0) (fun _ => none) with
  | .error er => .error er
  | .ok dp => .ok dp.2

/-- The predecessor walk of `Graph.shortest_path` (graph.py lines 497-501):
`while u in prev.keys(): path.insert(0, u); if prev[u]: dist += weight(...);
u = prev[u]`.  The keys of `prev` are exactly the graph's vertices; `None`
is never a key.  The Python loop does not terminate on a cyclic predecessor
map; the fuel `|V| + 1` is enough for every acyclic walk. -/
def Graph.walkLoop (g : Graph V) (falsy : V → Bool) (prev : V → Option V) :
    Nat → Option V → List V → FVal → List V × FVal
  | 0, _, path, dist => (path, dist)
  | fuel + 1, u?, path, dist =>
    match u? with
    | none => (path, dist)
    | some u =>
      if u ∈ g.vset then
        Graph.walkLoop g falsy prev fuel (prev u) (u :: path)
          (match prev u with
           | none => dist
           | some p => if falsy p then dist else dist + g.weight p u)
      else (path, dist)

/-- `Graph.shortest_path` (graph.py lines 481-502): runs `dijkstra(start)`
and walks the predecessor map back from `end`. -/
def Graph.shortest_path (g : Graph V) (falsy : V → Bool) (start fin : V) :
    Except PyErr (List V × FVal) :=
  match g.dijkstra falsy start with
  | .error er => .error er
  | .ok prev => .ok (g.walkLoop falsy prev (g.vset.length + 1) (some fin) [] 0)

/-- The one-hop relation along which `dijkstra` can relax: a finite-weight
step, i.e. the ordered edge (a, b) is stored and a ≠ b (`Graph.weight`
returns 1 exactly on stored ordered edges off the diagonal, for directed and
undirected graphs alike). -/
def Graph.stepRel (g : Graph V) (a b : V) : Prop :=
  (⟨a, b⟩ : GraphEdge V) ∈ g.eset ∧ a ≠ b

/-- Reachability along finite-weight steps; "end is reachable from start"
for the purposes of the predecessor map produced by `dijkstra`. -/
def Graph.ReachW (g : Graph V) : V → V → Prop :=
  Relation.ReflTransGen g.stepRel

/-- The invariant maintained by the dijkstra loop: finite distance implies
reachability from `start`, a set predecessor implies finite distance, all
distances are nonnegative, and `start` keeps distance 0 and no
predecessor. -/
def DijkInv (g : Graph V) (start : V) (dist : V → FVal) (prev : V → Option V) : Prop :=
  (∀ v, dist v ≠ ⊤ → g.ReachW start v)
  ∧ (∀ v, prev v ≠ none → dist v ≠ ⊤)
  ∧ (∀ v, 0 ≤ dist v)
  ∧ dist start = 0
  ∧ prev start = none

-- Indexed set (iset.py).

/-- `IndexedMember` (iset.py lines 14-70): a record with an immutable
`index` used for hashing and equality and a mutable payload.  Python
equality of two members compares the indices only. -/
structure IndexedMember (ι π : Type) where
  index : ι
  payload : π
  deriving DecidableEq

/-- `IndexedSet` (iset.py lines 73-189): a Python set of `IndexedMember`s,
modelled as a list; set membership follows `IndexedMember.__eq__`, i.e. is
by index. -/
abbrev IndexedSet (ι π : Type) := List (IndexedMember ι π)

/-- `IndexedSet.add` (iset.py lines 137-147): `set.add(self, copy(item))`.
Python's `set.add` is a no-op when a member equal to the argument (here:
with the same index) is already present; otherwise a shallow copy of the
item is inserted (the copy is identity on the immutable model values). -/
def IndexedSet.add {ι π : Type} [DecidableEq ι]
    (s : IndexedSet ι π) (item : IndexedMember ι π) : IndexedSet ι π :=
  if s.any (fun m => m.index == item.index) then s else s ++ [item]

/-- `IndexedSet.__getitem__` (iset.py lines 89-101): the first stored item
whose index equals the key, else `KeyError`. -/
def IndexedSet.getitem {ι π : Type} [DecidableEq ι]
    (s : IndexedSet ι π) (key : ι) : Except PyErr (IndexedMember ι π) :=
  match s.find? (fun m => m.index == key) with
  | some m => .ok m
  | none => .error .keyError

-- Fuzzy graph (fgraph.py).

/-- Modelled from the spec: `FuzzyElement` lives in fset.py, which is not
under src/ (only its importer fgraph.py is).  Per spec section 3 it pairs an
arbitrary object with a membership degree in [0,1] and is hashed/equal by
the wrapped object; fgraph.py accesses the fields `obj` and `mu`.
Membership degrees (Python floats) are modelled as rationals. -/
structure FuzzyElement (α : Type) where
  obj : α
  mu : ℚ
  deriving DecidableEq

/-- `FuzzyGraph` (fgraph.py lines 14-229): directed flag plus fuzzy vertex
and edge sets.  Modelled from the spec: the `FuzzySet` container from the
missing fset.py is, per spec section 6, a set of FuzzyElements keyed by
wrapped object, iterated element by element; it is modelled as a list of
`FuzzyElement`s. -/
structure FuzzyGraph (V : Type) where
  directed : Bool
  fvset : List (FuzzyElement V)
  feset : List (FuzzyElement (GraphEdge V))

/-- `FuzzyGraph.vertices` (fgraph.py lines 61-68), via the spec-modelled
`FuzzySet.objects`: the wrapped vertex objects. -/
def FuzzyGraph.vertices (fg : FuzzyGraph V) : List V :=
  fg.fvset.map (fun fe => fe.obj)

/-- The edge list computed by `FuzzyGraph.edges` (fgraph.py lines 85-92)
once the vertex checks have passed: wrapped edge objects matching the
constraints, with the undirected reverse-orientation overlay. -/
def FuzzyGraph.edgesSel (fg : FuzzyGraph V) (t? h? : Option V) : List (GraphEdge V) :=
  let fwd := (fg.feset.filter fun fe =>
    t?.all (fun t => fe.obj.tail == t) && h?.all (fun h => fe.obj.head == h)).map
      (fun fe => fe.obj)
  if fg.directed then fwd
  else pyUnion fwd ((fg.feset.filter fun fe =>
    t?.all (fun t => fe.obj.head == t) && h?.all (fun h => fe.obj.tail == h)).map
      (fun fe => fe.obj))

/-- `FuzzyGraph.edges` (fgraph.py lines 70-92): `KeyError` when a non-`None`
constraint vertex is not a member of the vertex set. -/
def FuzzyGraph.edges (fg : FuzzyGraph V) (t? h? : Option V) :
    Except PyErr (List (GraphEdge V)) :=
  if (t?.any fun t => decide (t ∉ fg.vertices)) ||
      (h?.any fun h => decide (h ∉ fg.vertices)) then
    .error .keyError
  else
    .ok (fg.edgesSel t? h?)

/-- The scan loop of `FuzzyGraph.mu` (fgraph.py lines 109-112): the
membership degree of the first stored fuzzy edge whose wrapped object equals
the popped edge, 0 if none is found. -/
def FuzzyGraph.muScan (fg : FuzzyGraph V) (e : GraphEdge V) : ℚ :=
  match fg.feset.find? (fun fe => GraphEdge.pyEq fe.obj e) with
  | some fe => fe.mu
  | none => 0

/-- `FuzzyGraph.mu` (fgraph.py lines 94-112): pops an element of
`edges(tail, head)` (modelled: the first element of the computed list);
a `KeyError` — from the vertex check or from popping an empty set — is
caught and yields 0; otherwise the stored membership degree of the popped
edge is looked up by the scan loop. -/
def FuzzyGraph.mu (fg : FuzzyGraph V) (t h : V) : ℚ :=
  match fg.edges (some t) (some h) with
  | .error _ => 0
  | .ok [] => 0
  | .ok (e :: _) => fg.muScan e

/-- `FuzzyGraph.weight` (fgraph.py lines 114-131): 0 on the diagonal,
otherwise `1./mu` with the `ZeroDivisionError` for `mu == 0` caught and
turned into infinity. -/
def FuzzyGraph.weight (fg : FuzzyGraph V) (t h : V) : FVal :=
  if t = h then 0
  else if fg.mu t h = 0 then ⊤
  else ((fg.mu t h)⁻¹ : ℚ)

-- Concrete instances used by counterexamples and witnesses.

/-- An undirected graph storing the single directed edge (0, 1); reachable
through the API (see `edges_membership_ordered_counterexample`). -/
def gU : Graph Nat := { directed := false, vset := [0, 1], eset := [⟨0, 1⟩] }

/-- A directed graph with two vertices and no edges. -/
def gTwo : Graph Nat := { directed := true, vset := [0, 1], eset := [] }

/-- The empty directed graph on no vertices. -/
def gNil : Graph Nat := { directed := true, vset := [], eset := [] }

/-- A directed graph with vertices {0, 1, 2} and the single edge (0, 1). -/
def gPath : Graph Nat := { directed := true, vset := [0, 1, 2], eset := [⟨0, 1⟩] }

/-- An indexed set holding one member with index 0 and payload 10. -/
def isetEx : IndexedSet Nat Nat := [⟨0, 10⟩]

/-- A fuzzy graph with crisp vertices X = 0 and Y = 1 and the single edge
(X, Y) with membership degree 1/2 (the spec's worked example). -/
def fgEx : FuzzyGraph Nat :=
  { directed := true
    fvset := [⟨0, 1⟩, ⟨1, 1⟩]
    feset := [⟨⟨0, 1⟩, 1/2⟩] }

-- Basic membership characterizations of the edge query.

theorem Graph.edges_none_none (g : Graph V) :
    g.edges none none = .ok (g.edgesSel none none) := rfl

@[simp] theorem Graph.mem_edgesSel_none_none (g : Graph V) (e : GraphEdge V) :
    e ∈ g.edgesSel none none ↔ e ∈ g.eset := by
  unfold Graph.edgesSel
  cases hd : g.directed <;>
    simp [Option.all_none, List.mem_filter, List.filter_true]

theorem Graph.mem_edgesSel_some_some (g : Graph V) (t h : V) (e : GraphEdge V) :
    e ∈ g.edgesSel (some t) (some h) ↔ e ∈ g.eset ∧ g.edgeMatches t h e := by
  unfold Graph.edgeMatches
  show _ ↔ e ∈ g.eset ∧
    ((e.tail = t ∧ e.head = h) ∨ (g.directed = false ∧ e.head = t ∧ e.tail = h))
  rcases Bool.eq_false_or_eq_true g.directed with hd | hd <;>
    simp only [Graph.edgesSel, hd, if_true, if_false, Bool.false_eq_true,
      mem_pyUnion, List.mem_filter, Option.all_some, Bool.and_eq_true,
      beq_iff_eq, Bool.true_eq_false, false_and, or_false, true_and] <;>
    tauto

theorem Graph.edges_some_some_ok (g : Graph V) (t h : V)
    (ht : t ∈ g.vset) (hh : h ∈ g.vset) :
    g.edges (some t) (some h) = .ok (g.edgesSel (some t) (some h)) := by
  unfold Graph.edges
  simp [Option.any_some, ht, hh]

theorem find?_eq_some_of_uniq {α : Type} (l : List α) (p : α → Bool) (a : α)
    (hmem : a ∈ l) (hpa : p a = true)
    (huniq : ∀ b ∈ l, p b = true → b = a) :
    l.find? p = some a := by
  induction l with
  | nil => cases hmem
  | cons x xs ih =>
    by_cases hx : p x = true
    · rw [List.find?_cons_of_pos _ hx]
      exact congrArg some (huniq x (List.mem_cons_self x xs) hx)
    · rw [List.find?_cons_of_neg _ (by simpa using hx)]
      apply ih
      · rcases List.mem_cons.mp hmem with rfl | hm
        · exact absurd hpa hx
        · exact hm
      · exact fun b hb hpb => huniq b (List.mem_cons_of_mem x hb) hpb

/-- `GraphEdge.__eq__` returns True exactly on structurally equal ordered
pairs. -/
theorem GraphEdge.pyEq_iff (a b : GraphEdge V) :
    GraphEdge.pyEq a b = true ↔ a = b := by
  unfold GraphEdge.pyEq
  by_cases hc : a.tail ≠ b.tail ∨ a.head ≠ b.head
  · rw [if_pos hc]
    simp only [Bool.false_eq_true, false_iff]
    intro heq
    subst heq
    rcases hc with hc | hc <;> exact hc rfl
  · rw [if_neg hc]
    push_neg at hc
    constructor
    · intro _
      obtain ⟨ht, hh⟩ := hc
      cases a
      cases b
      simp_all
    · intro _
      rfl

end FuzzPy

namespace FuzzPy

variable {V : Type} [DecidableEq V]

-- Generic helpers about folding `erase` over a list (the net effect of the
-- removal loops of remove_edge / remove_vertex on Python-set state).

theorem foldl_erase_sublist {α : Type} [DecidableEq α] (rem l : List α) :
    List.Sublist (rem.foldl (fun acc e => acc.erase e) l) l := by
  induction rem generalizing l with
  | nil => exact List.Sublist.refl l
  | cons r rs ih =>
    simpa using (ih (l.erase r)).trans (List.erase_sublist r l)

theorem foldl_erase_eq_filter {α : Type} [DecidableEq α] (rem l : List α)
    (hl : l.Nodup) :
    rem.foldl (fun acc e => acc.erase e) l = l.filter (fun a => decide (a ∉ rem)) := by
  induction rem generalizing l with
  | nil => simp
  | cons r rs ih =>
    simp only [List.foldl_cons]
    rw [ih (l.erase r) (hl.erase r), hl.erase_eq_filter r, List.filter_filter]
    apply List.filter_congr
    intro a _
    by_cases h1 : a = r <;> by_cases h2 : a ∈ rs <;> simp [h1, h2]

/-- The successful behaviour of `Graph.remove_edge` when both arguments are
vertices: the matched edge set is subtracted from `_E`. -/
theorem Graph.remove_edge_char (g : Graph V) (t h : V)
    (ht : t ∈ g.vset) (hh : h ∈ g.vset) (hnd : g.eset.Nodup) :
    g.remove_edge t h =
      .ok { g with eset :=
        g.eset.filter (fun e => decide (e ∉ g.edgesSel (some t) (some h))) } := by
  unfold Graph.remove_edge
  rw [Graph.edges_some_some_ok g t h ht hh]
  simp only [Except.map]
  rw [foldl_erase_eq_filter _ _ hnd]

/-- C3: for distinct vertices a and b, `GraphEdge.__eq__` accepts the
identically oriented pair and rejects the reversed pair, while
`GraphEdge.__hash__` is symmetric in the two endpoints (for every ambient
hash function on vertices). -/
theorem graphedge_eq_ordered_hash_symmetric (a b : V) (hash : V → Nat)
    (hab : a ≠ b) :
    GraphEdge.pyEq (⟨a, b⟩ : GraphEdge V) ⟨a, b⟩ = true
    ∧ GraphEdge.pyEq (⟨a, b⟩ : GraphEdge V) ⟨b, a⟩ = false
    ∧ GraphEdge.pyHash hash ⟨a, b⟩ = GraphEdge.pyHash hash ⟨b, a⟩ := by
  refine ⟨by simp [GraphEdge.pyEq], ?_, ?_⟩
  · unfold GraphEdge.pyEq
    exact if_pos (Or.inl hab)
  · unfold GraphEdge.pyHash
    exact Nat.xor_comm _ _

/-- Witness for C3 at a = 0, b = 1 with the identity hash. -/
theorem graphedge_eq_ordered_hash_symmetric_witness :
    (0 : Nat) ≠ 1
    ∧ (GraphEdge.pyEq (⟨0, 1⟩ : GraphEdge Nat) ⟨0, 1⟩ = true
      ∧ GraphEdge.pyEq (⟨0, 1⟩ : GraphEdge Nat) ⟨1, 0⟩ = false
      ∧ GraphEdge.pyHash id ⟨0, 1⟩ = GraphEdge.pyHash id ⟨1, 0⟩) :=
  ⟨by decide, graphedge_eq_ordered_hash_symmetric 0 1 id (by decide)⟩

/-- C1 counterexample: the undirected graph `gU`, built through the API by
adding vertices 0 and 1 and the edge (0, 1), stores only the orientation
(0, 1); `(0,1) in G.edges()` holds but `(1,0) in G.edges()` does not —
Python set membership in the result of `edges()` uses the ordered
`GraphEdge.__eq__`, so edge membership is not orientation-independent. -/
theorem edges_membership_ordered_counterexample :
    gU.directed = false
    ∧ (0 : Nat) ≠ 1
    ∧ (((Graph.empty false : Graph Nat).add_vertex 0).add_vertex 1).add_edge ⟨0, 1⟩
        = .ok gU
    ∧ (⟨0, 1⟩ : GraphEdge Nat) ∈ gU.edgesSel none none
    ∧ (⟨1, 0⟩ : GraphEdge Nat) ∉ gU.edgesSel none none :=
  ⟨rfl, by decide, rfl, by decide, by decide⟩

/-- C1 (amended): on an undirected graph the symmetric overlay makes the
filtered query orientation-independent — `edges(a, b)` and `edges(b, a)`
return the same edge set — even though bare membership of an oriented pair
in `edges()` is an ordered test. -/
theorem edges_query_orientation_symmetric (g : Graph V) (a b : V)
    (hd : g.directed = false) (ha : a ∈ g.vset) (hb : b ∈ g.vset) :
    ∃ l1 l2, g.edges (some a) (some b) = .ok l1
      ∧ g.edges (some b) (some a) = .ok l2
      ∧ ∀ e, e ∈ l1 ↔ e ∈ l2 := by
  refine ⟨_, _, g.edges_some_some_ok a b ha hb, g.edges_some_some_ok b a hb ha, ?_⟩
  intro e
  rw [Graph.mem_edgesSel_some_some, Graph.mem_edgesSel_some_some]
  unfold Graph.edgeMatches
  rw [hd]
  simp only [true_and]
  tauto

/-- Witness for the amended C1 on the concrete undirected graph `gU`. -/
theorem edges_query_orientation_symmetric_witness :
    (gU.directed = false ∧ 0 ∈ gU.vset ∧ 1 ∈ gU.vset)
    ∧ (∃ l1 l2, gU.edges (some 0) (some 1) = .ok l1
        ∧ gU.edges (some 1) (some 0) = .ok l2
        ∧ ∀ e, e ∈ l1 ↔ e ∈ l2) :=
  ⟨⟨rfl, by decide, by decide⟩,
    edges_query_orientation_symmetric gU 0 1 rfl (by decide) (by decide)⟩

/-- C5: adding a fresh edge whose endpoints are vertices succeeds, the edge
is then a member of `edges()`, and adding it again fails with `ValueError`
(the spec's `DuplicateKind`); the failing call performs no mutation (the
model returns only the error). -/
theorem add_edge_member_then_duplicate (g : Graph V) (e : GraphEdge V)
    (ht : e.tail ∈ g.vset) (hh : e.head ∈ g.vset) (hnew : e ∉ g.eset) :
    ∃ g2, g.add_edge e = .ok g2
      ∧ e ∈ g2.edgesSel none none
      ∧ g2.add_edge e = .error .valueError := by
  have hsel : e ∉ g.edgesSel none none := by
    rwa [Graph.mem_edgesSel_none_none]
  refine ⟨{ g with eset := g.eset ++ [e] }, ?_, ?_, ?_⟩
  · unfold Graph.add_edge
    rw [if_neg (by push_neg; exact ⟨ht, hh⟩), if_neg hsel]
  · rw [Graph.mem_edgesSel_none_none]
    simp
  · unfold Graph.add_edge
    rw [if_neg (by push_neg; exact ⟨ht, hh⟩), if_pos (by
      rw [Graph.mem_edgesSel_none_none]; simp)]

/-- Witness for C5: adding edge (0, 1) to the edgeless graph `gTwo`. -/
theorem add_edge_member_then_duplicate_witness :
    ((0 : Nat) ∈ gTwo.vset ∧ (1 : Nat) ∈ gTwo.vset
      ∧ (⟨0, 1⟩ : GraphEdge Nat) ∉ gTwo.eset)
    ∧ (∃ g2, gTwo.add_edge ⟨0, 1⟩ = .ok g2
        ∧ (⟨0, 1⟩ : GraphEdge Nat) ∈ g2.edgesSel none none
        ∧ g2.add_edge ⟨0, 1⟩ = .error .valueError) :=
  ⟨⟨by decide, by decide, by decide⟩,
    add_edge_member_then_duplicate gTwo ⟨0, 1⟩ (by decide) (by decide) (by decide)⟩

/-- C6: for vertices tail and head of the graph, `remove_edge` succeeds and
removes exactly the edges matching (tail, head) under the graph's
directed/undirected semantics; when no edge matches it raises no error and
returns the graph unchanged. -/
theorem remove_edge_matching_or_noop (g : Graph V) (t h : V)
    (ht : t ∈ g.vset) (hh : h ∈ g.vset) (hnd : g.eset.Nodup) :
    ∃ g2, g.remove_edge t h = .ok g2
      ∧ g2.directed = g.directed
      ∧ g2.vset = g.vset
      ∧ (∀ e, e ∈ g2.eset ↔ e ∈ g.eset ∧ ¬ g.edgeMatches t h e)
      ∧ ((∀ e ∈ g.eset, ¬ g.edgeMatches t h e) → g.remove_edge t h = .ok g) := by
  refine ⟨_, g.remove_edge_char t h ht hh hnd, rfl, rfl, ?_, ?_⟩
  · intro e
    simp only [List.mem_filter, decide_eq_true_eq, Graph.mem_edgesSel_some_some]
    tauto
  · intro hnone
    have hempty : g.edgesSel (some t) (some h) = [] := by
      rw [List.eq_nil_iff_forall_not_mem]
      intro e he
      rw [Graph.mem_edgesSel_some_some] at he
      exact hnone e he.1 he.2
    unfold Graph.remove_edge
    rw [Graph.edges_some_some_ok g t h ht hh, hempty]
    rfl

/-- Witness for C6: removing the absent edge (1, 0) from `gU` (which stores
only (0, 1), and matching is checked under undirected semantics where (1, 0)
does match (0, 1) — so the matched edge is removed; and removing (0, 1) from
the edgeless `gTwo` is a silent no-op). -/
theorem remove_edge_matching_or_noop_witness :
    ((0 : Nat) ∈ gTwo.vset ∧ (1 : Nat) ∈ gTwo.vset ∧ gTwo.eset.Nodup)
    ∧ (∃ g2, gTwo.remove_edge 0 1 = .ok g2
        ∧ g2.directed = gTwo.directed
        ∧ g2.vset = gTwo.vset
        ∧ (∀ e, e ∈ g2.eset ↔ e ∈ gTwo.eset ∧ ¬ gTwo.edgeMatches 0 1 e)
        ∧ ((∀ e ∈ gTwo.eset, ¬ gTwo.edgeMatches 0 1 e) →
            gTwo.remove_edge 0 1 = .ok gTwo)) :=
  ⟨⟨by decide, by decide, by decide⟩,
    remove_edge_matching_or_noop gTwo 0 1 (by decide) (by decide) (by decide)⟩

/-- C9: on an undirected graph storing (a, b) but not (b, a), `weight(a, b)`
is 1 while `weight(b, a)` is infinite even though `adjacent(b, a)` is true:
`weight` tests ordered membership in `edges()` and does not apply the
undirected overlay. -/
theorem weight_asymmetric_on_undirected (g : Graph V) (a b : V)
    (hd : g.directed = false) (hab : a ≠ b) (ha : a ∈ g.vset) (hb : b ∈ g.vset)
    (hmem : (⟨a, b⟩ : GraphEdge V) ∈ g.eset)
    (hrev : (⟨b, a⟩ : GraphEdge V) ∉ g.eset) :
    g.weight a b = 1 ∧ g.weight b a = ⊤ ∧ g.adjacent b a = .ok true := by
  refine ⟨?_, ?_, ?_⟩
  · unfold Graph.weight
    rw [if_neg hab, if_pos (by rwa [Graph.mem_edgesSel_none_none])]
  · unfold Graph.weight
    rw [if_neg (fun hba => hab hba.symm),
      if_neg (by rwa [Graph.mem_edgesSel_none_none])]
  · unfold Graph.adjacent
    rw [if_neg (fun hba => hab hba.symm), Graph.edges_some_some_ok g b a hb ha]
    have hne : g.edgesSel (some b) (some a) ≠ [] := by
      apply List.ne_nil_of_mem (a := (⟨a, b⟩ : GraphEdge V))
      rw [Graph.mem_edgesSel_some_some]
      exact ⟨hmem, Or.inr ⟨hd, rfl, rfl⟩⟩
    cases hsel : g.edgesSel (some b) (some a) with
    | nil => exact absurd hsel hne
    | cons x xs => simp

/-- Witness for C9 on the concrete undirected graph `gU`. -/
theorem weight_asymmetric_on_undirected_witness :
    (gU.directed = false ∧ (0 : Nat) ≠ 1 ∧ 0 ∈ gU.vset ∧ 1 ∈ gU.vset
      ∧ (⟨0, 1⟩ : GraphEdge Nat) ∈ gU.eset ∧ (⟨1, 0⟩ : GraphEdge Nat) ∉ gU.eset)
    ∧ (gU.weight 0 1 = 1 ∧ gU.weight 1 0 = ⊤ ∧ gU.adjacent 1 0 = .ok true) :=
  ⟨⟨rfl, by decide, by decide, by decide, by decide, by decide⟩,
    weight_asymmetric_on_undirected gU 0 1 rfl (by decide) (by decide) (by decide)
      (by decide) (by decide)⟩

/-- C10 counterexample: `adjacent(0, 0)` on the empty graph returns False
without raising, even though 0 is not a vertex — the `tail == head` early
return precedes the vertex check, so not every `adjacent` call with a vertex
outside the graph fails. -/
theorem adjacent_diagonal_no_error_counterexample :
    (0 : Nat) ∉ gNil.vset
    ∧ gNil.adjacent 0 0 = .ok false
    ∧ gNil.adjacent 0 0 ≠ .error .keyError :=
  ⟨by decide, rfl, fun hcontra => Except.noConfusion hcontra⟩

/-- C10 (amended): `edges` fails with `KeyError` (the spec's `NotFoundKind`)
whenever a non-`None` tail or head argument is outside the vertex set,
before any edge is examined; `remove_edge` with an argument outside the
vertex set always fails that way, and `adjacent` does too whenever its two
arguments are distinct — but `adjacent(x, x)` returns False without error
even when x is outside the graph. -/
theorem edges_vertex_check (g : Graph V) (t? h? : Option V) (t h x : V)
    (hbad : (∃ a ∈ t?, a ∉ g.vset) ∨ (∃ a ∈ h?, a ∉ g.vset))
    (hbad2 : t ∉ g.vset ∨ h ∉ g.vset) (hth : t ≠ h) :
    g.edges t? h? = .error .keyError
    ∧ g.remove_edge t h = .error .keyError
    ∧ g.adjacent t h = .error .keyError
    ∧ g.adjacent x x = .ok false := by
  have he : g.edges (some t) (some h) = .error .keyError := by
    unfold Graph.edges
    rcases hbad2 with hbb | hbb <;> simp [hbb]
  refine ⟨?_, ?_, ?_, ?_⟩
  · unfold Graph.edges
    rcases hbad with ⟨a, ha, hna⟩ | ⟨a, ha, hna⟩ <;>
      rw [Option.mem_def] at ha <;> subst ha <;> simp [hna]
  · unfold Graph.remove_edge
    rw [he]
    rfl
  · unfold Graph.adjacent
    rw [if_neg hth, he]
  · unfold Graph.adjacent
    rw [if_pos rfl]

/-- Witness for the amended C10 on the empty graph `gNil`. -/
theorem edges_vertex_check_witness :
    (((∃ a ∈ (some 0 : Option Nat), a ∉ gNil.vset)
        ∨ (∃ a ∈ (none : Option Nat), a ∉ gNil.vset))
      ∧ ((0 : Nat) ∉ gNil.vset ∨ (1 : Nat) ∉ gNil.vset) ∧ (0 : Nat) ≠ 1)
    ∧ (gNil.edges (some 0) none = .error .keyError
      ∧ gNil.remove_edge 0 1 = .error .keyError
      ∧ gNil.adjacent 0 1 = .error .keyError
      ∧ gNil.adjacent 5 5 = .ok false) :=
  ⟨⟨Or.inl ⟨0, rfl, by decide⟩, Or.inl (by decide), by decide⟩,
    edges_vertex_check gNil (some 0) none 0 1 5
      (Or.inl ⟨0, rfl, by decide⟩) (Or.inl (by decide)) (by decide)⟩

end FuzzPy

namespace FuzzPy

variable {V : Type} [DecidableEq V]

/-- C2 counterexample: adding a member with an already-present index 0 to
the set holding (index 0, payload 10) leaves the set unchanged — Python's
`set.add` is a no-op on an element equal (by index) to a stored member — so
the lookup by index 0 still returns the old payload 10, not the new
payload 20. -/
theorem indexedset_add_duplicate_counterexample :
    IndexedSet.add isetEx ⟨0, 20⟩ = isetEx
    ∧ IndexedSet.getitem (IndexedSet.add isetEx ⟨0, 20⟩) 0 = .ok ⟨0, 10⟩
    ∧ IndexedSet.getitem (IndexedSet.add isetEx ⟨0, 20⟩) 0 ≠ .ok ⟨0, 20⟩ := by
  refine ⟨rfl, rfl, fun hcontra => ?_⟩
  exact absurd (Except.ok.inj hcontra) (by decide)

/-- C2 (amended): `IndexedSet.add` on an item whose index is already present
is a silent no-op — no error is raised, the stored entry is kept, and every
subsequent lookup returns exactly what it returned before the call
(first-write-wins; replacement is only performed by `__setitem__`). -/
theorem indexedset_add_duplicate_noop {ι π : Type} [DecidableEq ι]
    (s : IndexedSet ι π) (item : IndexedMember ι π)
    (hdup : ∃ m ∈ s, m.index = item.index) :
    IndexedSet.add s item = s
    ∧ ∀ key, IndexedSet.getitem (IndexedSet.add s item) key
        = IndexedSet.getitem s key := by
  have hany : s.any (fun m => m.index == item.index) = true := by
    obtain ⟨m, hm, hidx⟩ := hdup
    exact List.any_eq_true.mpr ⟨m, hm, by simp [hidx]⟩
  have hadd : IndexedSet.add s item = s := by
    unfold IndexedSet.add
    rw [if_pos hany]
  exact ⟨hadd, fun key => by rw [hadd]⟩

/-- Witness for the amended C2 on the concrete one-member set `isetEx`. -/
theorem indexedset_add_duplicate_noop_witness :
    (∃ m ∈ isetEx, m.index = (⟨0, 20⟩ : IndexedMember Nat Nat).index)
    ∧ (IndexedSet.add isetEx ⟨0, 20⟩ = isetEx
      ∧ ∀ key, IndexedSet.getitem (IndexedSet.add isetEx ⟨0, 20⟩) key
          = IndexedSet.getitem isetEx key) :=
  ⟨⟨⟨0, 10⟩, by decide, rfl⟩,
    indexedset_add_duplicate_noop isetEx ⟨0, 20⟩ ⟨⟨0, 10⟩, by decide, rfl⟩⟩

/-- C8: `FuzzyGraph.weight` is 0 on the diagonal; off the diagonal, when the
edge query returns exactly the edge wrapped by the stored fuzzy element
`fe` (stored uniquely for its wrapped object), the weight is the reciprocal
of `fe`'s membership degree, infinity when that degree is exactly 0; and
when no edge matches (`mu` returns 0) the weight is infinity. -/
theorem fuzzy_weight_reciprocal (fg : FuzzyGraph V) (t h : V)
    (fe : FuzzyElement (GraphEdge V)) (hmem : fe ∈ fg.feset)
    (huniq : ∀ fe2 ∈ fg.feset, fe2.obj = fe.obj → fe2 = fe) :
    (t = h → fg.weight t h = 0)
    ∧ (t ≠ h → fg.edges (some t) (some h) = .ok [fe.obj] →
        fg.weight t h = if fe.mu = 0 then (⊤ : FVal) else ((fe.mu)⁻¹ : ℚ))
    ∧ (t ≠ h → fg.mu t h = 0 → fg.weight t h = ⊤)
    ∧ (t ≠ h → fg.edges (some t) (some h) = .ok [] → fg.weight t h = ⊤) := by
  have hfind : fg.feset.find? (fun fe2 => GraphEdge.pyEq fe2.obj fe.obj) = some fe :=
    find?_eq_some_of_uniq fg.feset _ fe hmem
      ((GraphEdge.pyEq_iff fe.obj fe.obj).mpr rfl)
      (fun b hb hpb => huniq b hb ((GraphEdge.pyEq_iff b.obj fe.obj).mp hpb))
  refine ⟨?_, ?_, ?_, ?_⟩
  · intro heq
    unfold FuzzyGraph.weight
    rw [if_pos heq]
  · intro hne hq
    have hmu : fg.mu t h = fe.mu := by
      have hstep : fg.mu t h = fg.muScan fe.obj := by
        unfold FuzzyGraph.mu
        rw [hq]
      rw [hstep]
      unfold FuzzyGraph.muScan
      rw [hfind]
    unfold FuzzyGraph.weight
    rw [if_neg hne, hmu]
  · intro hne h0
    unfold FuzzyGraph.weight
    rw [if_neg hne, if_pos h0]
  · intro hne hq
    have hmu : fg.mu t h = 0 := by
      unfold FuzzyGraph.mu
      rw [hq]
    unfold FuzzyGraph.weight
    rw [if_neg hne, if_pos hmu]

/-- Witness for C8 on the spec's worked example: vertices X = 0 and Y = 1,
edge (X, Y) with membership 1/2, so `weight(X, Y) = 2`. -/
theorem fuzzy_weight_reciprocal_witness :
    ((⟨⟨0, 1⟩, 1/2⟩ : FuzzyElement (GraphEdge Nat)) ∈ fgEx.feset
      ∧ (∀ fe2 ∈ fgEx.feset,
          fe2.obj = (⟨⟨0, 1⟩, 1/2⟩ : FuzzyElement (GraphEdge Nat)).obj →
            fe2 = ⟨⟨0, 1⟩, 1/2⟩))
    ∧ ((0 : Nat) ≠ 1
      ∧ fgEx.edges (some 0) (some 1) = .ok [⟨0, 1⟩]
      ∧ fgEx.weight 0 1 = ((2 : ℚ) : FVal)) := by
  have hm : (⟨⟨0, 1⟩, 1/2⟩ : FuzzyElement (GraphEdge Nat)) ∈ fgEx.feset :=
    List.mem_singleton.mpr rfl
  have hu : ∀ fe2 ∈ fgEx.feset,
      fe2.obj = (⟨⟨0, 1⟩, 1/2⟩ : FuzzyElement (GraphEdge Nat)).obj →
        fe2 = ⟨⟨0, 1⟩, 1/2⟩ :=
    fun fe2 h2 _ => List.mem_singleton.mp h2
  refine ⟨⟨hm, hu⟩, by decide, rfl, ?_⟩
  have h := (fuzzy_weight_reciprocal fgEx 0 1 ⟨⟨0, 1⟩, 1/2⟩ hm hu).2.1
    (by decide) rfl
  rw [h, if_neg (by norm_num)]
  norm_num

end FuzzPy

namespace FuzzPy

variable {V : Type} [DecidableEq V]

/-- Behaviour of the removal loop of `Graph.remove_vertex` (graph.py lines
167-169) over a snapshot `es` of `edges()`: it succeeds whenever the
endpoints of the snapshot edges are vertices, never touches the vertex set,
only removes stored edges, and removes every processed edge containing
`v`. -/
theorem removeVertexFold_spec (v : V) (es : List (GraphEdge V)) :
    ∀ g : Graph V, g.eset.Nodup →
      (∀ e ∈ es, e.tail ∈ g.vset ∧ e.head ∈ g.vset) →
      ∃ g2,
        es.foldlM
          (fun acc e =>
            if e.containsVertex v then acc.remove_edge e.tail e.head else pure acc) g
          = .ok g2
        ∧ g2.directed = g.directed
        ∧ g2.vset = g.vset
        ∧ g2.eset.Nodup
        ∧ (∀ e, e ∈ g2.eset → e ∈ g.eset)
        ∧ (∀ e ∈ es, e.containsVertex v → e ∉ g2.eset) := by
  induction es with
  | nil =>
    intro g hnd _
    exact ⟨g, rfl, rfl, rfl, hnd, fun _ hm => hm, by simp⟩
  | cons e es ih =>
    intro g hnd hends
    have het := (hends e (List.mem_cons_self e es)).1
    have heh := (hends e (List.mem_cons_self e es)).2
    have hendtail : ∀ e2 ∈ es, e2.tail ∈ g.vset ∧ e2.head ∈ g.vset :=
      fun e2 he2 => hends e2 (List.mem_cons_of_mem e he2)
    by_cases hc : e.containsVertex v
    · have hchar := g.remove_edge_char e.tail e.head het heh hnd
      obtain ⟨g2, hfold, hdir, hvs, hnd2, hsub, hgone⟩ :=
        ih { g with eset := g.eset.filter (fun e2 => decide (e2 ∉ g.edgesSel (some e.tail) (some e.head))) } (hnd.filter _) hendtail
      refine ⟨g2, ?_, hdir, hvs, hnd2, ?_, ?_⟩
      · simp only [List.foldlM_cons, if_pos hc, hchar]
        exact hfold
      · intro e2 he2
        exact List.mem_of_mem_filter (hsub e2 he2)
      · intro e2 he2 hcv
        rcases List.mem_cons.mp he2 with rfl | hm
        · intro hmem2
          have := hsub e2 hmem2
          rw [List.mem_filter, decide_eq_true_eq] at this
          apply this.2
          rw [Graph.mem_edgesSel_some_some]
          exact ⟨this.1, Or.inl ⟨rfl, rfl⟩⟩
        · exact hgone e2 hm hcv
    · obtain ⟨g2, hfold, hdir, hvs, hnd2, hsub, hgone⟩ := ih g hnd hendtail
      refine ⟨g2, ?_, hdir, hvs, hnd2, hsub, ?_⟩
      · simp only [List.foldlM_cons, if_neg hc]
        exact hfold
      · intro e2 he2 hcv
        rcases List.mem_cons.mp he2 with rfl | hm
        · exact absurd hcv hc
        · exact hgone e2 hm hcv

/-- C4: every Graph operation preserves the invariant that the endpoints of
every stored edge are vertices: `add_edge` rejects an edge with a missing
endpoint, `add_vertex`, successful `add_edge` and successful `remove_edge`
preserve well-formedness, and `remove_vertex(v)` succeeds on a well-formed
graph, preserves well-formedness, and leaves no edge in `edges()` containing
`v`. -/
theorem graph_endpoint_invariant (g : Graph V) (e : GraphEdge V) (v : V)
    (hwf : g.wf) (hv : v ∈ g.vset) :
    ((e.tail ∉ g.vset ∨ e.head ∉ g.vset) → g.add_edge e = .error .keyError)
    ∧ (∀ g2, g.add_edge e = .ok g2 → g2.wf)
    ∧ (∀ t h g2, g.remove_edge t h = .ok g2 → g2.wf)
    ∧ (g.add_vertex v).wf
    ∧ (∃ g2, g.remove_vertex v = .ok g2 ∧ g2.wf
        ∧ ∀ e2 ∈ g2.edgesSel none none, ¬ e2.containsVertex v) := by
  obtain ⟨hvnd, hend, hinv⟩ := hwf
  refine ⟨?_, ?_, ?_, ?_, ?_⟩
  · intro hb
    unfold Graph.add_edge
    rw [if_pos hb]
  · intro g2 hok
    unfold Graph.add_edge at hok
    by_cases hb : e.tail ∉ g.vset ∨ e.head ∉ g.vset
    · rw [if_pos hb] at hok
      exact absurd hok (fun hcc => Except.noConfusion hcc)
    · rw [if_neg hb] at hok
      push_neg at hb
      by_cases hdup : e ∈ g.edgesSel none none
      · rw [if_pos hdup] at hok
        exact absurd hok (fun hcc => Except.noConfusion hcc)
      · rw [if_neg hdup] at hok
        cases Except.ok.inj hok
        rw [Graph.mem_edgesSel_none_none] at hdup
        refine ⟨hvnd, ?_, ?_⟩
        · simp [List.nodup_append, hend, hdup]
        · intro e2 he2
          rcases List.mem_append.mp he2 with hm | hm
          · exact hinv e2 hm
          · rw [List.mem_singleton.mp hm]
            exact ⟨hb.1, hb.2⟩
  · intro t h g2 hok
    unfold Graph.remove_edge at hok
    cases hq : g.edges (some t) (some h) with
    | error er =>
      rw [hq] at hok
      exact absurd hok (fun hcc => Except.noConfusion hcc)
    | ok es =>
      rw [hq] at hok
      simp only [Except.map] at hok
      cases Except.ok.inj hok
      refine ⟨hvnd, List.Sublist.nodup (foldl_erase_sublist es g.eset) hend, ?_⟩
      intro e2 he2
      exact hinv e2 (List.Sublist.subset (foldl_erase_sublist es g.eset) he2)
  · unfold Graph.add_vertex Graph.wf
    by_cases hvm : v ∈ g.vset
    · rw [if_pos hvm]
      exact ⟨hvnd, hend, hinv⟩
    · rw [if_neg hvm]
      refine ⟨?_, hend, ?_⟩
      · simp [List.nodup_append, hvnd, hvm]
      · intro e2 he2
        exact ⟨List.mem_append_left _ (hinv e2 he2).1,
          List.mem_append_left _ (hinv e2 he2).2⟩
  · have hsnap : ∀ e2 ∈ g.edgesSel none none, e2.tail ∈ g.vset ∧ e2.head ∈ g.vset :=
      fun e2 he2 => hinv e2 ((g.mem_edgesSel_none_none e2).mp he2)
    obtain ⟨g2, hfold, hdir, hvs, hnd2, hsub, hgone⟩ :=
      removeVertexFold_spec v (g.edgesSel none none) g hend hsnap
    have hnotv : ∀ e2 ∈ g2.eset, ¬ e2.containsVertex v :=
      fun e2 he2 hcv =>
        hgone e2 ((g.mem_edgesSel_none_none e2).mpr (hsub e2 he2)) hcv he2
    refine ⟨{ g2 with vset := g2.vset.erase v }, ?_, ⟨?_, hnd2, ?_⟩, ?_⟩
    · unfold Graph.remove_vertex
      rw [if_pos hv, g.edges_none_none]
      show (match (g.edgesSel none none).foldlM
          (fun acc e2 =>
            if e2.containsVertex v then acc.remove_edge e2.tail e2.head else pure acc) g with
        | Except.error er => (Except.error er : Except PyErr (Graph V))
        | Except.ok g3 => Except.ok { g3 with vset := g3.vset.erase v })
        = Except.ok { g2 with vset := g2.vset.erase v }
      rw [hfold]
    · rw [hvs]
      exact hvnd.erase v
    · intro e2 he2
      have hm : e2 ∈ g.eset := hsub e2 he2
      have hnc := hnotv e2 he2
      unfold GraphEdge.containsVertex at hnc
      push_neg at hnc
      constructor
      · rw [hvs]
        exact (List.mem_erase_of_ne hnc.1).mpr (hinv e2 hm).1
      · rw [hvs]
        exact (List.mem_erase_of_ne hnc.2).mpr (hinv e2 hm).2
    · intro e2 he2
      rw [Graph.mem_edgesSel_none_none] at he2
      exact hnotv e2 he2

/-- Witness for C4 on `gPath` (vertices 0, 1, 2, edge (0, 1)), with the
rejected edge (0, 5) and the removed vertex 1. -/
theorem graph_endpoint_invariant_witness :
    (gPath.wf ∧ (1 : Nat) ∈ gPath.vset)
    ∧ ((((⟨0, 5⟩ : GraphEdge Nat).tail ∉ gPath.vset
          ∨ (⟨0, 5⟩ : GraphEdge Nat).head ∉ gPath.vset) →
        gPath.add_edge ⟨0, 5⟩ = .error .keyError)
      ∧ (∀ g2, gPath.add_edge ⟨0, 5⟩ = .ok g2 → g2.wf)
      ∧ (∀ t h g2, gPath.remove_edge t h = .ok g2 → g2.wf)
      ∧ (gPath.add_vertex 1).wf
      ∧ (∃ g2, gPath.remove_vertex 1 = .ok g2 ∧ g2.wf
          ∧ ∀ e2 ∈ g2.edgesSel none none, ¬ e2.containsVertex 1)) :=
  ⟨⟨by decide, by decide⟩,
    graph_endpoint_invariant gPath ⟨0, 5⟩ 1 (by decide) (by decide)⟩

end FuzzPy

namespace FuzzPy

variable {V : Type} [DecidableEq V]

-- Dijkstra helper lemmas.

theorem selectMinGo_some (falsy : V → Bool) (dist : V → FVal) (u0 v : V) :
    ∃ w, selectMinGo falsy dist (some u0) v = some w ∧ (w = u0 ∨ w = v) := by
  show ∃ w, (if (falsy u0 || decide (dist v < dist u0)) = true
      then some v else some u0) = some w ∧ (w = u0 ∨ w = v)
  by_cases hb : (falsy u0 || decide (dist v < dist u0)) = true
  · rw [if_pos hb]
    exact ⟨v, rfl, Or.inr rfl⟩
  · rw [if_neg hb]
    exact ⟨u0, rfl, Or.inl rfl⟩

theorem selectMin_foldl_mem (falsy : V → Bool) (dist : V → FVal) :
    ∀ (l : List V) (u0 : V),
      ∃ u, l.foldl (selectMinGo falsy dist) (some u0) = some u ∧ (u = u0 ∨ u ∈ l) := by
  intro l
  induction l with
  | nil => exact fun u0 => ⟨u0, rfl, Or.inl rfl⟩
  | cons v l ih =>
    intro u0
    obtain ⟨w, hw, hw2⟩ := selectMinGo_some falsy dist u0 v
    obtain ⟨u, hu, hu2⟩ := ih w
    refine ⟨u, ?_, ?_⟩
    · rw [List.foldl_cons, hw]
      exact hu
    · rcases hu2 with rfl | hm
      · rcases hw2 with rfl | rfl
        · exact Or.inl rfl
        · exact Or.inr (List.mem_cons_self _ _)
      · exact Or.inr (List.mem_cons_of_mem _ hm)

theorem selectMin_mem (falsy : V → Bool) (dist : V → FVal) (q : V) (qs : List V) :
    ∃ u, selectMin falsy dist (q :: qs) = some u ∧ u ∈ q :: qs := by
  unfold selectMin
  rw [List.foldl_cons]
  obtain ⟨u, hu, hu2⟩ := selectMin_foldl_mem falsy dist qs q
  refine ⟨u, hu, ?_⟩
  rcases hu2 with rfl | hm
  · exact List.mem_cons_self _ _
  · exact List.mem_cons_of_mem _ hm

theorem Graph.weight_nonneg (g : Graph V) (t h : V) : 0 ≤ g.weight t h := by
  unfold Graph.weight
  split_ifs
  · exact le_refl 0
  · exact zero_le_one
  · exact le_top

theorem Graph.weight_ne_top (g : Graph V) (u v : V) (hw : g.weight u v ≠ ⊤) :
    u = v ∨ ((⟨u, v⟩ : GraphEdge V) ∈ g.eset ∧ u ≠ v) := by
  unfold Graph.weight at hw
  by_cases he : u = v
  · exact Or.inl he
  · rw [if_neg he] at hw
    by_cases hm : (⟨u, v⟩ : GraphEdge V) ∈ g.edgesSel none none
    · rw [Graph.mem_edgesSel_none_none] at hm
      exact Or.inr ⟨hm, he⟩
    · rw [if_neg hm] at hw
      exact absurd rfl hw

theorem relaxStep_inv (g : Graph V) (start u : V)
    (dp : (V → FVal) × (V → Option V)) (v : V)
    (hinv : DijkInv g start dp.1 dp.2) :
    DijkInv g start (g.relaxStep u dp v).1 (g.relaxStep u dp v).2 := by
  obtain ⟨h1, h2, h3, h4, h5⟩ := hinv
  unfold Graph.relaxStep
  by_cases hlt : dp.1 u + g.weight u v < dp.1 v
  · rw [if_pos hlt]
    have halt_ne : dp.1 u + g.weight u v ≠ ⊤ := hlt.ne_top
    have hu_ne : dp.1 u ≠ ⊤ := (WithTop.add_ne_top.mp halt_ne).1
    have hw_ne : g.weight u v ≠ ⊤ := (WithTop.add_ne_top.mp halt_ne).2
    have halt_nonneg : 0 ≤ dp.1 u + g.weight u v :=
      add_nonneg (h3 u) (g.weight_nonneg u v)
    have hreach_v : g.ReachW start v := by
      rcases g.weight_ne_top u v hw_ne with rfl | ⟨hm, hne⟩
      · exact h1 u hu_ne
      · exact Relation.ReflTransGen.tail (h1 u hu_ne) ⟨hm, hne⟩
    have hv_ne_start : v ≠ start := by
      intro heq
      have h0 : dp.1 v = 0 := by rw [heq, h4]
      rw [h0] at hlt
      exact absurd hlt (not_lt.mpr halt_nonneg)
    refine ⟨?_, ?_, ?_, ?_, ?_⟩
    · intro w hw
      by_cases hwv : w = v
      · subst hwv
        exact hreach_v
      · simp only [fupdate, if_neg hwv] at hw
        exact h1 w hw
    · intro w hw
      by_cases hwv : w = v
      · subst hwv
        simp only [fupdate, if_pos rfl]
        exact halt_ne
      · simp only [fupdate, if_neg hwv] at hw ⊢
        exact h2 w hw
    · intro w
      by_cases hwv : w = v
      · subst hwv
        simp only [fupdate, if_pos rfl]
        exact halt_nonneg
      · simp only [fupdate, if_neg hwv]
        exact h3 w
    · simp only [fupdate, if_neg (Ne.symm hv_ne_start)]
      exact h4
    · simp only [fupdate, if_neg (Ne.symm hv_ne_start)]
      exact h5
  · rw [if_neg hlt]
    exact ⟨h1, h2, h3, h4, h5⟩

theorem relaxFold_inv (g : Graph V) (start u : V) (ns : List V) :
    ∀ dp, DijkInv g start dp.1 dp.2 →
      DijkInv g start (ns.foldl (g.relaxStep u) dp).1 (ns.foldl (g.relaxStep u) dp).2 := by
  induction ns with
  | nil => exact fun dp hp => hp
  | cons v ns ih =>
    intro dp hp
    rw [List.foldl_cons]
    exact ih _ (relaxStep_inv g start u dp v hp)

theorem Graph.adjacent_isOk (g : Graph V) (t h : V)
    (hth : t = h ∨ (t ∈ g.vset ∧ h ∈ g.vset)) :
    ∃ b, g.adjacent t h = .ok b := by
  unfold Graph.adjacent
  by_cases he : t = h
  · rw [if_pos he]
    exact ⟨false, rfl⟩
  · rw [if_neg he]
    rcases hth with he2 | ⟨ht, hh⟩
    · exact absurd he2 he
    · rw [g.edges_some_some_ok t h ht hh]
      exact ⟨_, rfl⟩

theorem exceptFilter_isOk {ε α : Type} (p : α → Except ε Bool) (l : List α)
    (hp : ∀ a ∈ l, ∃ b, p a = .ok b) : ∃ r, exceptFilter p l = .ok r := by
  induction l with
  | nil => exact ⟨[], rfl⟩
  | cons a l ih =>
    obtain ⟨b, hb⟩ := hp a (List.mem_cons_self a l)
    obtain ⟨r, hr⟩ := ih (fun x hx => hp x (List.mem_cons_of_mem a hx))
    refine ⟨if b then a :: r else r, ?_⟩
    simp only [exceptFilter]
    rw [hb, hr]

theorem Graph.neighbors_isOk (g : Graph V) (u : V) (hu : u ∈ g.vset) :
    ∃ ns, g.neighbors u = .ok ns := by
  unfold Graph.neighbors
  exact exceptFilter_isOk _ _ (fun v hv => g.adjacent_isOk u v (Or.inr ⟨hu, hv⟩))

theorem dijkInv_init (g : Graph V) (start : V) :
    DijkInv g start (fupdate (fun _ => (⊤ : FVal)) start 0) (fun _ => none) := by
  refine ⟨?_, ?_, ?_, ?_, ?_⟩
  · intro v hv
    by_cases hvs : v = start
    · subst hvs
      exact Relation.ReflTransGen.refl
    · simp only [fupdate, if_neg hvs] at hv
      exact absurd rfl hv
  · intro v hv
    exact absurd rfl hv
  · intro v
    simp only [fupdate]
    split_ifs
    · exact le_refl 0
    · exact le_top
  · show (if start = start then (0 : FVal) else ⊤) = 0
    rw [if_pos rfl]
  · rfl

theorem dijkstraLoop_inv (g : Graph V) (falsy : V → Bool) (start : V) :
    ∀ (fuel : Nat) (Q : List V) (dist : V → FVal) (prev : V → Option V),
      (∀ x ∈ Q, x ∈ g.vset) → DijkInv g start dist prev →
      ∃ dp, g.dijkstraLoop falsy fuel Q dist prev = .ok dp
        ∧ DijkInv g start dp.1 dp.2 := by
  intro fuel
  induction fuel with
  | zero =>
    intro Q dist prev _ hinv
    cases Q with
    | nil => exact ⟨(dist, prev), rfl, hinv⟩
    | cons q qs => exact ⟨(dist, prev), rfl, hinv⟩
  | succ fuel ih =>
    intro Q dist prev hQ hinv
    cases Q with
    | nil => exact ⟨(dist, prev), rfl, hinv⟩
    | cons q qs =>
      obtain ⟨u, hsel, humem⟩ := selectMin_mem falsy dist q qs
      obtain ⟨ns, hns⟩ := g.neighbors_isOk u (hQ u humem)
      have hinv2 := relaxFold_inv g start u ns (dist, prev) hinv
      obtain ⟨dp, hdp, hdpinv⟩ := ih ((q :: qs).erase u) _ _
        (fun x hx => hQ x (List.mem_of_mem_erase hx)) hinv2
      refine ⟨dp, ?_, hdpinv⟩
      have step1 : g.dijkstraLoop falsy (fuel + 1) (q :: qs) dist prev
          = match g.neighbors u with
            | Except.error er => Except.error er
            | Except.ok ns2 =>
              let dp2 := ns2.foldl (g.relaxStep u) (dist, prev)
              g.dijkstraLoop falsy fuel ((q :: qs).erase u) dp2.1 dp2.2 := by
        show (match selectMin falsy dist (q :: qs) with
          | none => Except.ok (dist, prev)
          | some u2 =>
            match g.neighbors u2 with
            | Except.error er => Except.error er
            | Except.ok ns2 =>
              let dp2 := ns2.foldl (g.relaxStep u2) (dist, prev)
              g.dijkstraLoop falsy fuel ((q :: qs).erase u2) dp2.1 dp2.2) = _
        rw [hsel]
      rw [step1, hns]
      exact hdp

/-- C7: on a graph containing the vertex `end`, if `end` is not reachable
from `start` along relaxable (finite-weight) steps — in particular whenever
it is unreachable in the ordinary sense, and also when `start = end` —
`shortest_path(start, end)` returns the single-vertex path `[end]` with
distance 0: the predecessor walk stops at the first vertex with no
predecessor rather than signalling unreachability. -/
theorem shortest_path_unreachable (g : Graph V) (falsy : V → Bool)
    (start fin : V) (hfin : fin ∈ g.vset)
    (hun : start = fin ∨ ¬ g.ReachW start fin) :
    g.shortest_path falsy start fin = .ok ([fin], 0) := by
  obtain ⟨dp, hloop, hinv⟩ := dijkstraLoop_inv g falsy start g.vset.length g.vset _ _
    (fun x hx => hx) (dijkInv_init g start)
  have hprev : dp.2 fin = none := by
    rcases hun with rfl | hun
    · exact hinv.2.2.2.2
    · by_cases hp : dp.2 fin = none
      · exact hp
      · exact absurd (hinv.1 fin (hinv.2.1 fin hp)) hun
  unfold Graph.shortest_path Graph.dijkstra
  rw [hloop]
  show Except.ok (g.walkLoop falsy dp.2 (g.vset.length + 1) (some fin) [] 0)
    = Except.ok ([fin], (0 : FVal))
  congr 1
  show (if fin ∈ g.vset then
      g.walkLoop falsy dp.2 g.vset.length (dp.2 fin) [fin]
        (match dp.2 fin with
         | none => (0 : FVal)
         | some p => if falsy p then 0 else 0 + g.weight p fin)
    else ([], 0)) = ([fin], (0 : FVal))
  rw [if_pos hfin, hprev]
  cases g.vset.length <;> rfl

/-- Witness for C7: in the edgeless two-vertex graph `gTwo`, vertex 1 is
unreachable from vertex 0, and `shortest_path(0, 1)` returns ([1], 0). -/
theorem shortest_path_unreachable_witness :
    ((1 : Nat) ∈ gTwo.vset ∧ ((0 : Nat) = 1 ∨ ¬ gTwo.ReachW 0 1))
    ∧ gTwo.shortest_path (fun _ => false) 0 1 = .ok ([1], 0) := by
  have hnr : ¬ gTwo.ReachW 0 1 := by
    intro hr
    have hall : ∀ y, gTwo.ReachW 0 y → y = 0 := by
      intro y hy
      induction hy with
      | refl => rfl
      | tail hab hbc ih =>
        unfold Graph.stepRel at hbc
        exact absurd hbc.1 (List.not_mem_nil _)
    exact absurd (hall 1 hr) (by decide)
  exact ⟨⟨by decide, Or.inr hnr⟩,
    shortest_path_unreachable gTwo (fun _ => false) 0 1 (by decide) (Or.inr hnr)⟩

end FuzzPy
